import Mathlib

/-!
Shallow embedding of `features.py` (author-classification feature extractor).

File I/O is modelled by passing file contents as `String`s: a corpus is a
list of file contents (for `create_dictionary`) or of (path, content) pairs
(for `create_dataset`).  Python `dict`s with insertion order are modelled as
association lists, numpy `uint8` vectors as `List Nat` (every value written
is a class id or the bit 1, far below 256, so no wrap-around arises).
-/

/-- Whitespace characters recognised by Python's `str.split()` (ASCII). -/
def pyIsSpace (c : Char) : Bool :=
  c = ' ' || c = '\t' || c = '\n' || c = '\r' || c = '\x0b' || c = '\x0c'

/-- Helper for `pySplit`: scans the character list, accumulating the current
token in reverse; whitespace runs produce no empty tokens, as in Python. -/
def pySplitAux : List Char → List Char → List (List Char)
  | cur, [] => if cur = [] then [] else [cur.reverse]
  | cur, c :: cs =>
    if pyIsSpace c then
      if cur = [] then pySplitAux [] cs else cur.reverse :: pySplitAux [] cs
    else pySplitAux (c :: cur) cs

/-- Python `text.split()`: split on runs of whitespace, no empty tokens. -/
def pySplit (text : String) : List String :=
  (pySplitAux [] text.data).map (fun cs => String.mk cs)

/-- Python `regex.sub('', word)` for the pattern `[^a-zA-Z]`: keep only ASCII
letters (`Char.isAlpha` is exactly `[a-zA-Z]`). -/
def stripNonAlpha (w : String) : String :=
  String.mk (w.data.filter (fun c => c.isAlpha))

/-- Python `str.lower()` on the ASCII-alphabetic strings produced here. -/
def lowerStr (s : String) : String :=
  String.mk (s.data.map Char.toLower)

/-- The per-token body of the loop in `find_unique_words`: strip non-letters,
drop the token if fewer than 2 letters remain, lowercase the survivor. -/
def normalizeToken (w : String) : Option String :=
  if (stripNonAlpha w).length < 2 then none
  else some (lowerStr (stripNonAlpha w))

/-- Function `find_unique_words` (features.py, lines 28-40): split the text on
whitespace, normalize each token, collect survivors, collapse duplicates
(`list(set(clean_words))`; `dedup` models the set, whose order the Python
code leaves unspecified). -/
def find_unique_words (text : String) : List String :=
  ((pySplit text).filterMap normalizeToken).dedup

/-- The comparison used to model Python `sorted` on strings: lexicographic
over code points. -/
def wordLe (a b : String) : Prop := a.data ≤ b.data

instance : DecidableRel wordLe :=
  fun a b => (inferInstance : Decidable (a.data ≤ b.data))

instance : IsTotal String wordLe := ⟨fun a b => le_total a.data b.data⟩

instance : IsTrans String wordLe := ⟨fun _ _ _ h h2 => le_trans h h2⟩

/-- Function `create_dictionary` (features.py, lines 43-56): union of the unique-word
lists of every file's entire content, deduplicated, sorted lexicographically
(Python `sorted`; on a duplicate-free list any sort by this total
antisymmetric order yields the same list, so a structural insertion sort
stands in for it), then enumerated starting at 1, yielding the word-to-index
association list
(`{key: value for value, key in enumerate(sorted(dict_words), start=1)}`). -/
def create_dictionary (files : List String) : List (String × Nat) :=
  let dict_words := files.flatMap find_unique_words
  let sorted_words := List.insertionSort wordLe dict_words.dedup
  (List.enumFrom 1 sorted_words).map (fun p => (p.2, p.1))

/-- Helper for `splitlines`: split the character list at every newline,
accumulating the current line in reverse.  Python `str.splitlines()` also
recognises `\r` and other Unicode boundaries; only `\n` is modelled here. -/
def splitlinesAux : List Char → List Char → List String
  | cur, [] => [String.mk cur.reverse]
  | cur, c :: cs =>
    if c = '\n' then String.mk cur.reverse :: splitlinesAux [] cs
    else splitlinesAux (c :: cur) cs

/-- Python `text.splitlines()`: the empty text has no lines, and a trailing
newline does not produce a trailing empty line. -/
def splitlines (s : String) : List String :=
  if s.data = [] then []
  else
    let parts := splitlinesAux [] s.data
    if parts.getLast? = some "" then parts.dropLast else parts

/-- The loop body of `read_paragraphs`: an empty line flushes the paragraph
buffer (even when the buffer is empty); any other line is appended to the
buffer behind a single space (`paragraph = f'{paragraph} {line}'`). -/
def paraStep (st : List String × String) (line : String) : List String × String :=
  if line = "" then (st.1 ++ [st.2], "") else (st.1, st.2 ++ " " ++ line)

/-- Function `read_paragraphs` (features.py, lines 59-77), with the file's text passed
directly: fold the loop over the lines, then flush the final buffer when it
is non-empty (`if len(paragraph) > 0`). -/
def read_paragraphs (text : String) : List String :=
  let st := (splitlines text).foldl paraStep ([], "")
  if st.2.length > 0 then st.1 ++ [st.2] else st.1

/-- Python `os.path.basename`: the characters after the last slash. -/
def basenameChars (cs : List Char) : List Char :=
  cs.foldl (fun acc c => if c = '/' then [] else acc ++ [c]) []

/-- Python `str.replace(".txt", "")`: remove every (left-to-right,
non-overlapping) occurrence of `.txt`, not only a trailing extension. -/
def stripTxtAll : List Char → List Char
  | '.' :: 't' :: 'x' :: 't' :: rest => stripTxtAll rest
  | c :: rest => c :: stripTxtAll rest
  | [] => []

/-- The paragraph identifier built at features.py line 97:
`f'{os.path.basename(txt).replace(".txt", "")}.{i}'`. -/
def para_id (txt : String) (i : Nat) : String :=
  String.mk (stripTxtAll (basenameChars txt.data)) ++ "." ++ toString i

/-- Does `s` start with `p`? (helper for the substring test). -/
def startsWithChars : List Char → List Char → Bool
  | [], _ => true
  | _ :: _, [] => false
  | p :: ps, s :: ss => p = s && startsWithChars ps ss

/-- Contiguous-substring test on character lists (Python `in` on `str`). -/
def containsChars : List Char → List Char → Bool
  | pat, [] => startsWithChars pat []
  | pat, c :: ss => startsWithChars pat (c :: ss) || containsChars pat ss

/-- Python `needle in haystack` for strings. -/
def pyIn (needle haystack : String) : Bool :=
  containsChars needle.data haystack.data

/-- The class-assignment loop of `paragraphs_to_features` (lines 87-90):
for every (marker, class id) in insertion order, overwrite slot 0 with the
class id whenever the lowercased marker occurs in the lowercased filename. -/
def setClass (txt : String) (classes : List (String × Nat)) (features : List Nat) : List Nat :=
  classes.foldl
    (fun fs kv => if pyIn (lowerStr kv.1) (lowerStr txt) then fs.set 0 kv.2 else fs)
    features

/-- The word-presence loop of `paragraphs_to_features` (lines 93-95): for
every (word, index) of the dictionary, set slot `index` to 1 when the word
occurs in the paragraph's unique-word list. -/
def setWordFeatures (dict_words : List (String × Nat)) (words : List String)
    (features : List Nat) : List Nat :=
  dict_words.foldl (fun fs kv => if kv.1 ∈ words then fs.set kv.2 1 else fs) features

/-- One paragraph's feature vector: a zero vector of length `|V| + 1`
(`np.zeros((len(dict_words)+1))`), classed, then word-marked. -/
def mkFeatures (dict_words : List (String × Nat)) (txt paragraph : String)
    (classes : List (String × Nat)) : List Nat :=
  setWordFeatures dict_words (find_unique_words paragraph)
    (setClass txt classes (List.replicate (dict_words.length + 1) 0))

/-- Function `paragraphs_to_features` (features.py, lines 81-100): enumerate the
paragraphs starting at 1 and emit `(para_id, feature vector)` pairs. -/
def paragraphs_to_features (dict_words : List (String × Nat)) (txt : String)
    (paragraphs : List String) (classes : List (String × Nat)) : List (String × List Nat) :=
  (List.enumFrom 1 paragraphs).map
    (fun p => (para_id txt p.1, mkFeatures dict_words txt p.2 classes))

/-- Function `create_dataset` (features.py, lines 104-114), with the corpus passed as
(path, content) pairs: concatenate the per-file example lists. -/
def create_dataset (dict_words : List (String × Nat)) (corpus : List (String × String))
    (classes : List (String × Nat)) : List (String × List Nat) :=
  corpus.flatMap
    (fun doc => paragraphs_to_features dict_words doc.1 (read_paragraphs doc.2) classes)

/-- One CSV line of `data_to_csv`: the paragraph id, then `', ' + str(feat)`
for each selected feature value, then a newline. -/
def csvLine (id : String) (feats : List Nat) : String :=
  id ++ feats.foldl (fun acc feat => acc ++ ", " ++ toString feat) "" ++ "\n"

/-- Function `data_to_csv` (features.py, lines 117-125).  The Python loop reads
`features[i]` for each dataset position `i`, an `IndexError` when `features`
is shorter than the dataset; that fallibility is modelled with `Option`.
Surplus rows of `features` are ignored, as in the source. -/
def data_to_csv : List (String × List Nat) → List (List Nat) → Option String
  | [], _ => some ""
  | _ :: _, [] => none
  | d :: ds, f :: fs => (data_to_csv ds fs).map (fun rest => csvLine d.1 f ++ rest)

/-- Modelled from the spec: `prune_dataset` is imported by features.py from
the `info_gain` module, which is missing from the sources.  Per spec sections
4.6 and 8 it ranks the feature indices `1..|V|` by information gain,
descending, with ties broken by ascending index, and selects the top
`n_feats` (so the selection has size `min(n_feats, |V|)`).  The numeric
information-gain values (the entropy formula of section 4.6) are abstracted
as a parameter `ig`, since the claims settled here hold for every gain
assignment. -/
def gainRank (ig : Nat → ℚ) (f g : Nat) : Prop :=
  ig g < ig f ∨ (ig f = ig g ∧ f ≤ g)

instance (ig : Nat → ℚ) : DecidableRel (gainRank ig) :=
  fun f g => (inferInstance : Decidable (ig g < ig f ∨ (ig f = ig g ∧ f ≤ g)))

/-- Modelled from the spec: the ranking-and-clamping step of the missing
`info_gain.prune_dataset` (spec sections 4.6 and 8): sort the feature indices
`1..|V|` by descending gain with ascending-index tie-break, keep the first
`n_feats`. -/
def selectTopFeatures (ig : Nat → ℚ) (n_feats : Nat) (num_words : Nat) : List Nat :=
  (List.insertionSort (gainRank ig) (List.range' 1 num_words)).take n_feats

/-- Modelled from the spec: the missing `info_gain.prune_dataset`, as used at
features.py line 150 and consumed by `data_to_csv`: for each example of the
full dataset, in order, the sub-vector of its feature values restricted to
the selected indices in selection order (out-of-range reads default to 0;
the bounds theorems show they never occur for real vocabularies). -/
def prune_dataset (ig : Nat → ℚ) (full_dataset : List (String × List Nat)) (n_feats : Nat)
    (dict_words : List (String × Nat)) : List (List Nat) :=
  let selected := selectTopFeatures ig n_feats dict_words.length
  full_dataset.map (fun ex => selected.map (fun f => ex.2.getD f 0))

/-! Specification-side definitions, used only to state properties. -/

/-- Concatenation of a list of strings (for stating the exporter contract). -/
def catList : List String → String
  | [] => ""
  | s :: ss => s ++ catList ss

/-- The exporter line of spec section 4.7, stated independently of the
accumulating loop: the id, then each value prefixed by comma-space, then a
newline. -/
def csvLineSpec (id : String) (feats : List Nat) : String :=
  id ++ catList (feats.map (fun v => ", " ++ toString v)) ++ "\n"

/-- The class id of the last ClassTable entry (insertion order) whose
lowercased marker is a substring of the lowercased filename, 0 when no
marker matches. -/
def lastMatchClass (classes : List (String × Nat)) (txt : String) : Nat :=
  match (classes.filter (fun kv => pyIn (lowerStr kv.1) (lowerStr txt))).getLast? with
  | some kv => kv.2
  | none => 0

/-- The text a run of lines contributes to a paragraph buffer: each line
preceded by one space (so the join of a non-empty run carries a leading
space, and the join of an empty run is the empty string). -/
def spaceJoin : List String → String
  | [] => ""
  | l :: ls => (" " ++ l) ++ spaceJoin ls

/-- Recursive restatement of the `read_paragraphs` loop: flush the buffer
`p` at every empty line (and once at the end when non-empty). -/
def mapFlush (p : String) : List String → List String
  | [] => if p.length > 0 then [p] else []
  | l :: ls => if l = "" then p :: mapFlush "" ls else mapFlush (p ++ " " ++ l) ls

/-- Predicate stating that `run` occurs contiguously inside `lines`. -/
def IsRun (run lines : List String) : Prop := ∃ s t, lines = s ++ run ++ t

/-- The whole text joined by single spaces (spec section 8's notion of the
"whole (space-joined) text" of a document). -/
def joinSp : List String → String
  | [] => ""
  | [l] => l
  | l :: l2 :: ls => l ++ " " ++ joinSp (l2 :: ls)

example : find_unique_words "Hello, hello world! a" = ["hello", "world"] := by decide
example : read_paragraphs "\nhello" = ["", " hello"] := by decide
example : read_paragraphs "hello\nworld" = [" hello world"] := by decide
example : read_paragraphs "" = [] := by decide
example : create_dictionary ["aa bb", "bb cc"] = [("aa", 1), ("bb", 2), ("cc", 3)] := by decide
example : para_id "dir/doc.txt.txt" 3 = "doc.3" := by decide
example : pyIn "ell" "hello" = true := by decide
example : pyIn "" "hello" = true := by decide
example : mkFeatures [("aa", 1), ("bb", 2)] "shelley1.txt" "bb dd"
    [("austin", 0), ("shelley", 1)] = [1, 0, 1] := by decide
example : data_to_csv [("a.1", [0, 1])] [[1]] = some "a.1, 1\n" := by decide
example : data_to_csv [("a.1", [0, 1])] [] = none := by decide
example : selectTopFeatures (fun _ => 0) 2 3 = [1, 2] := by decide
example : selectTopFeatures (fun _ => 0) 7 3 = [1, 2, 3] := by decide

/-! ## Helper lemmas -/

theorem data_empty : ("" : String).data = [] := rfl

theorem normalizeToken_eq_some {tok w : String} :
    normalizeToken tok = some w ↔
      2 ≤ (stripNonAlpha tok).length ∧ w = lowerStr (stripNonAlpha tok) := by
  unfold normalizeToken
  by_cases h : (stripNonAlpha tok).length < 2
  · simp only [if_pos h]
    constructor
    · intro hc; cases hc
    · intro hc; omega
  · simp only [if_neg h, Option.some.injEq]
    constructor
    · intro he; exact ⟨Nat.le_of_not_lt h, he.symm⟩
    · intro hc; exact hc.2.symm

theorem mem_find_unique_words {w : String} {text : String} :
    w ∈ find_unique_words text ↔
      ∃ tok ∈ pySplit text,
        2 ≤ (stripNonAlpha tok).length ∧ w = lowerStr (stripNonAlpha tok) := by
  simp only [find_unique_words, List.mem_dedup, List.mem_filterMap, normalizeToken_eq_some]

/-! ## C2 -/

/-- C2: `find_unique_words` returns the set of distinct normalized words of a
text: a token (whitespace-split) survives iff at least two `[a-zA-Z]`
characters remain after stripping, and is contributed lowercased; the result
has no duplicates, and membership depends only on which tokens occur in the
text, not on their order or multiplicity. -/
theorem find_unique_words_correct (text w : String) :
    (find_unique_words text).Nodup ∧
    (w ∈ find_unique_words text ↔
      ∃ tok ∈ pySplit text,
        2 ≤ (stripNonAlpha tok).length ∧ w = lowerStr (stripNonAlpha tok)) ∧
    (∀ text2 : String, (∀ t : String, t ∈ pySplit text ↔ t ∈ pySplit text2) →
      (w ∈ find_unique_words text ↔ w ∈ find_unique_words text2)) := by
  refine ⟨List.nodup_dedup _, mem_find_unique_words, fun text2 hsame => ?_⟩
  rw [mem_find_unique_words, mem_find_unique_words]
  constructor
  · rintro ⟨tok, ht, hp⟩; exact ⟨tok, (hsame tok).mp ht, hp⟩
  · rintro ⟨tok, ht, hp⟩; exact ⟨tok, (hsame tok).mpr ht, hp⟩

theorem find_unique_words_correct_witness :
    ("ab" ∈ find_unique_words "ab! cd ab") ∧ (find_unique_words "ab! cd ab").Nodup := by
  have h := find_unique_words_correct "ab! cd ab" "ab"
  exact ⟨h.2.1.mpr ⟨"ab!", by decide, by decide, by decide⟩, h.1⟩

/-! ## C9 -/

theorem foldl_append_eq_catList (feats : List Nat) (acc : String) :
    feats.foldl (fun a v => a ++ ", " ++ toString v) acc
      = acc ++ catList (feats.map (fun v => ", " ++ toString v)) := by
  induction feats generalizing acc with
  | nil => simp [catList, String.append_empty]
  | cons f fs ih =>
      simp only [List.foldl_cons, List.map_cons, catList, ih]
      apply String.ext
      simp [String.data_append, List.append_assoc]

theorem csvLine_eq_spec (id : String) (feats : List Nat) :
    csvLine id feats = csvLineSpec id feats := by
  unfold csvLine csvLineSpec
  rw [foldl_append_eq_catList]
  apply String.ext
  simp [String.data_append, data_empty, List.append_assoc]

/-- C9: on positionally aligned inputs (`features` as long as the dataset),
`data_to_csv` succeeds and produces exactly one line per example: the
example's ParagraphID, then each of its selected feature values in order,
each preceded by a comma and a space, the line terminated by a newline; the
values are rendered verbatim, with no computation on them. -/
theorem data_to_csv_correct (dataset : List (String × List Nat)) (features : List (List Nat))
    (h : features.length = dataset.length) :
    data_to_csv dataset features =
      some (catList ((dataset.zip features).map (fun p => csvLineSpec p.1.1 p.2))) := by
  induction dataset generalizing features with
  | nil =>
      have hf : features = [] := List.length_eq_zero.mp (by simpa using h)
      subst hf
      simp [data_to_csv, catList]
  | cons d ds ih =>
      cases features with
      | nil => simp at h
      | cons f fs =>
          have h2 : fs.length = ds.length := by simpa using h
          simp [data_to_csv, ih fs h2, catList, csvLine_eq_spec, List.zip]

theorem data_to_csv_correct_witness :
    data_to_csv [("a.1", [0, 1]), ("a.2", [1])] [[1, 0], [0]]
      = some "a.1, 1, 0\na.2, 0\n" := by
  have h := data_to_csv_correct [("a.1", [0, 1]), ("a.2", [1])] [[1, 0], [0]] (by decide)
  rw [h]; decide

/-! ## C5 -/

/-- C5 (spec-modelled: `info_gain.prune_dataset` is not in the sources): for
every dataset, every gain assignment and every requested count `n_feats`,
including `n_feats > |V|`, the selection has length exactly
`min n_feats |V|`, its indices lie in `[1, |V|]`, the pruned output has one
row per example of length `min n_feats |V|`, and every selected index is
strictly below the length `|V| + 1` of a well-formed feature vector, so no
selection access is out of bounds. -/
theorem prune_dataset_correct (ig : Nat → ℚ) (full_dataset : List (String × List Nat))
    (n_feats : Nat) (dict_words : List (String × Nat)) :
    (selectTopFeatures ig n_feats dict_words.length).length = min n_feats dict_words.length ∧
    (∀ f ∈ selectTopFeatures ig n_feats dict_words.length, 1 ≤ f ∧ f ≤ dict_words.length) ∧
    (prune_dataset ig full_dataset n_feats dict_words).length = full_dataset.length ∧
    (∀ row ∈ prune_dataset ig full_dataset n_feats dict_words,
      row.length = min n_feats dict_words.length) ∧
    (∀ ex ∈ full_dataset, ex.2.length = dict_words.length + 1 →
      ∀ f ∈ selectTopFeatures ig n_feats dict_words.length, f < ex.2.length) := by
  have hlen : (List.insertionSort (gainRank ig) (List.range' 1 dict_words.length)).length
      = dict_words.length := by
    rw [(List.perm_insertionSort _ _).length_eq, List.length_range']
  have hsel : (selectTopFeatures ig n_feats dict_words.length).length
      = min n_feats dict_words.length := by
    unfold selectTopFeatures
    rw [List.length_take, hlen]
  have hbound : ∀ f ∈ selectTopFeatures ig n_feats dict_words.length,
      1 ≤ f ∧ f ≤ dict_words.length := by
    intro f hf
    have hf2 : f ∈ List.insertionSort (gainRank ig) (List.range' 1 dict_words.length) :=
      List.take_subset _ _ hf
    have hf3 : f ∈ List.range' 1 dict_words.length :=
      (List.perm_insertionSort _ _).mem_iff.mp hf2
    obtain ⟨i, hi, rfl⟩ := List.mem_range'.mp hf3
    omega
  refine ⟨hsel, hbound, ?_, ?_, ?_⟩
  · unfold prune_dataset
    rw [List.length_map]
  · intro row hrow
    unfold prune_dataset at hrow
    obtain ⟨ex, _, rfl⟩ := List.mem_map.mp hrow
    rw [List.length_map, hsel]
  · intro ex _ hexlen f hf
    have := (hbound f hf).2
    omega

theorem prune_dataset_correct_witness :
    (selectTopFeatures (fun _ => 0) 5 2).length = min 5 2 ∧
    (prune_dataset (fun _ => 0) [("a.1", [0, 1, 1])] 5 [("x", 1), ("y", 2)]).length = 1 := by
  have h := prune_dataset_correct (fun _ => 0) [("a.1", [0, 1, 1])] 5 [("x", 1), ("y", 2)]
  exact ⟨h.1, h.2.2.1⟩

/-! ## Vector-write lemmas for `mkFeatures` -/

theorem setClass_length (txt : String) (classes : List (String × Nat)) :
    ∀ v : List Nat, (setClass txt classes v).length = v.length := by
  induction classes with
  | nil => intro v; rfl
  | cons kv rest ih =>
      intro v
      have hstep : setClass txt (kv :: rest) v
          = setClass txt rest
              (if pyIn (lowerStr kv.1) (lowerStr txt) then v.set 0 kv.2 else v) := rfl
      rw [hstep, ih]
      split <;> simp

theorem setWordFeatures_length (d : List (String × Nat)) (words : List String) :
    ∀ v : List Nat, (setWordFeatures d words v).length = v.length := by
  induction d with
  | nil => intro v; rfl
  | cons kv rest ih =>
      intro v
      have hstep : setWordFeatures (kv :: rest) words v
          = setWordFeatures rest words (if kv.1 ∈ words then v.set kv.2 1 else v) := rfl
      rw [hstep, ih]
      split <;> simp

theorem setClass_getElem_ne (txt : String) (classes : List (String × Nat))
    {j : Nat} (hj : j ≠ 0) :
    ∀ v : List Nat, (setClass txt classes v)[j]? = v[j]? := by
  induction classes with
  | nil => intro v; rfl
  | cons kv rest ih =>
      intro v
      have hstep : setClass txt (kv :: rest) v
          = setClass txt rest
              (if pyIn (lowerStr kv.1) (lowerStr txt) then v.set 0 kv.2 else v) := rfl
      rw [hstep, ih]
      split
      · exact List.getElem?_set_ne (by omega)
      · rfl

theorem setClass_getElem_zero (txt : String) :
    ∀ (classes : List (String × Nat)) (v : List Nat), 0 < v.length →
      (setClass txt classes v)[0]? =
        match (classes.filter (fun kv => pyIn (lowerStr kv.1) (lowerStr txt))).getLast? with
        | some kv => some kv.2
        | none => v[0]? := by
  intro classes
  induction classes using List.reverseRecOn with
  | nil => intro v hv; simp [setClass]
  | append_singleton l kv ih =>
      intro v hv
      have hstep : setClass txt (l ++ [kv]) v
          = if pyIn (lowerStr kv.1) (lowerStr txt) then (setClass txt l v).set 0 kv.2
            else setClass txt l v := by
        unfold setClass; rw [List.foldl_append]; rfl
      rw [hstep]
      by_cases hm : pyIn (lowerStr kv.1) (lowerStr txt)
      · rw [if_pos hm]
        have hfil : (l ++ [kv]).filter (fun kv => pyIn (lowerStr kv.1) (lowerStr txt))
            = l.filter (fun kv => pyIn (lowerStr kv.1) (lowerStr txt)) ++ [kv] := by
          simp [List.filter_append, hm]
        rw [hfil, List.getLast?_concat]
        exact List.getElem?_set_self (by rw [setClass_length]; exact hv)
      · rw [if_neg hm]
        have hfil : (l ++ [kv]).filter (fun kv => pyIn (lowerStr kv.1) (lowerStr txt))
            = l.filter (fun kv => pyIn (lowerStr kv.1) (lowerStr txt)) := by
          simp [List.filter_append, hm]
        rw [hfil]
        exact ih v hv

theorem setWordFeatures_getElem_notin (words : List String) {j : Nat} :
    ∀ d : List (String × Nat), (∀ kv ∈ d, kv.2 ≠ j) →
      ∀ v : List Nat, (setWordFeatures d words v)[j]? = v[j]? := by
  intro d
  induction d with
  | nil => intro _ v; rfl
  | cons kv rest ih =>
      intro hd v
      have hstep : setWordFeatures (kv :: rest) words v
          = setWordFeatures rest words (if kv.1 ∈ words then v.set kv.2 1 else v) := rfl
      rw [hstep, ih (fun x hx => hd x (List.mem_cons_of_mem _ hx))]
      split
      · exact List.getElem?_set_ne (hd kv (List.mem_cons_self _ _))
      · rfl

theorem setWordFeatures_getElem (words : List String) (d : List (String × Nat))
    (hnd : (d.map Prod.snd).Nodup) {kv : String × Nat} (hkv : kv ∈ d)
    (v : List Nat) (hlt : kv.2 < v.length) :
    (setWordFeatures d words v)[kv.2]? = if kv.1 ∈ words then some 1 else v[kv.2]? := by
  obtain ⟨s, t, rfl⟩ := List.mem_iff_append.mp hkv
  have hmap : ((s ++ kv :: t).map Prod.snd) = s.map Prod.snd ++ kv.2 :: t.map Prod.snd := by
    simp
  rw [hmap] at hnd
  have hs : ∀ x ∈ s, x.2 ≠ kv.2 := by
    intro x hx heq
    have hmem : kv.2 ∈ s.map Prod.snd := List.mem_map.mpr ⟨x, hx, heq⟩
    exact (List.nodup_append.mp hnd).2.2 hmem (List.mem_cons_self _ _)
  have ht : ∀ x ∈ t, x.2 ≠ kv.2 := by
    intro x hx heq
    have h2 := (List.nodup_append.mp hnd).2.1
    rw [List.nodup_cons] at h2
    exact h2.1 (List.mem_map.mpr ⟨x, hx, heq⟩)
  have hsplit : setWordFeatures (s ++ kv :: t) words v
      = setWordFeatures t words
          (if kv.1 ∈ words then (setWordFeatures s words v).set kv.2 1
           else setWordFeatures s words v) := by
    unfold setWordFeatures; rw [List.foldl_append]; rfl
  rw [hsplit, setWordFeatures_getElem_notin words t ht]
  split
  · exact List.getElem?_set_self (by rw [setWordFeatures_length]; exact hlt)
  · exact setWordFeatures_getElem_notin words s hs v

theorem mkFeatures_length (d : List (String × Nat)) (txt paragraph : String)
    (classes : List (String × Nat)) :
    (mkFeatures d txt paragraph classes).length = d.length + 1 := by
  unfold mkFeatures
  rw [setWordFeatures_length, setClass_length, List.length_replicate]

theorem mkFeatures_slot_zero (d : List (String × Nat)) (txt paragraph : String)
    (classes : List (String × Nat)) (hd : ∀ kv ∈ d, 1 ≤ kv.2) :
    (mkFeatures d txt paragraph classes)[0]? = some (lastMatchClass classes txt) := by
  unfold mkFeatures
  rw [setWordFeatures_getElem_notin _ _ (fun kv hkv => by have := hd kv hkv; omega)]
  rw [setClass_getElem_zero txt classes _ (by simp)]
  unfold lastMatchClass
  cases hc : (classes.filter (fun kv => pyIn (lowerStr kv.1) (lowerStr txt))).getLast? with
  | none => simp [List.getElem?_replicate]
  | some kv => rfl

theorem mkFeatures_slot_word (d : List (String × Nat)) (txt paragraph : String)
    (classes : List (String × Nat)) (hnd : (d.map Prod.snd).Nodup)
    {kv : String × Nat} (hkv : kv ∈ d) (h1 : 1 ≤ kv.2) (h2 : kv.2 ≤ d.length) :
    (mkFeatures d txt paragraph classes)[kv.2]? =
      some (if kv.1 ∈ find_unique_words paragraph then 1 else 0) := by
  unfold mkFeatures
  rw [setWordFeatures_getElem _ _ hnd hkv _
    (by rw [setClass_length, List.length_replicate]; omega)]
  by_cases hw : kv.1 ∈ find_unique_words paragraph
  · rw [if_pos hw, if_pos hw]
  · rw [if_neg hw, if_neg hw]
    rw [setClass_getElem_ne txt classes (by omega), List.getElem?_replicate,
      if_pos (by omega)]

/-! ## C4 -/

/-- C4: slot 0 of every vector emitted by `paragraphs_to_features` equals
the class id of the last ClassTable entry, in insertion order, whose
lowercased marker is a substring of the lowercased filename, and stays 0
when no marker matches (for any dictionary whose indices are all at least 1,
as every real vocabulary's are). -/
theorem class_slot_correct (dict_words classes : List (String × Nat)) (txt : String)
    (paragraphs : List String) (hdict : ∀ kv ∈ dict_words, 1 ≤ kv.2) :
    ∀ pr ∈ paragraphs_to_features dict_words txt paragraphs classes,
      pr.2[0]? = some (lastMatchClass classes txt) := by
  intro pr hpr
  unfold paragraphs_to_features at hpr
  obtain ⟨p, _, rfl⟩ := List.mem_map.mp hpr
  exact mkFeatures_slot_zero dict_words txt p.2 classes hdict

theorem class_slot_correct_witness :
    (("shelley1.1",
        mkFeatures [("aa", 1)] "shelley1.txt" " aa" [("she", 3), ("lley", 7)])
          : String × List Nat).2[0]?
      = some (lastMatchClass [("she", 3), ("lley", 7)] "shelley1.txt") :=
  class_slot_correct [("aa", 1)] [("she", 3), ("lley", 7)] "shelley1.txt" [" aa"]
    (by decide) _ (by decide)

/-! ## C3 -/

/-- C3: one vector is emitted per paragraph, in order; for every position
`i`, the `i`-th emitted vector is the vector of the `i`-th paragraph: it has
length exactly `|V| + 1` and, for every dictionary entry, slot `kv.2` holds 1
when the word `kv.1` is among that very paragraph's normalized unique words
and 0 otherwise (vocabulary hypotheses: injective indices covering
`[1, |V|]`); moreover every index `j` of `[1, |V|]` is some dictionary
word's index. -/
theorem feature_vector_correct (dict_words classes : List (String × Nat)) (txt : String)
    (paragraphs : List String)
    (hnd : (dict_words.map Prod.snd).Nodup)
    (hrange : ∀ kv ∈ dict_words, 1 ≤ kv.2 ∧ kv.2 ≤ dict_words.length) :
    (paragraphs_to_features dict_words txt paragraphs classes).length = paragraphs.length ∧
    (∀ (i : Nat) (para : String), paragraphs[i]? = some para →
      ∃ pr, (paragraphs_to_features dict_words txt paragraphs classes)[i]? = some pr ∧
        pr.2.length = dict_words.length + 1 ∧
        ∀ kv ∈ dict_words,
          pr.2[kv.2]? = some (if kv.1 ∈ find_unique_words para then 1 else 0)) ∧
    (∀ j, 1 ≤ j → j ≤ dict_words.length → ∃ kv ∈ dict_words, kv.2 = j) := by
  refine ⟨?_, ?_, ?_⟩
  · unfold paragraphs_to_features
    rw [List.length_map, List.enumFrom_length]
  · intro i para hpi
    refine ⟨(para_id txt (1 + i), mkFeatures dict_words txt para classes), ?_,
      mkFeatures_length .., fun kv hkv => ?_⟩
    · unfold paragraphs_to_features
      rw [List.getElem?_map, List.getElem?_enumFrom, hpi]
      rfl
    · exact mkFeatures_slot_word dict_words txt para classes hnd hkv
        (hrange kv hkv).1 (hrange kv hkv).2
  · intro j h1 h2
    have hsub : dict_words.map Prod.snd ⊆ List.range' 1 dict_words.length := by
      intro x hx
      obtain ⟨kv, hkv, rfl⟩ := List.mem_map.mp hx
      have := hrange kv hkv
      exact List.mem_range'.mpr ⟨kv.2 - 1, by omega, by omega⟩
    have hperm : (dict_words.map Prod.snd).Perm (List.range' 1 dict_words.length) :=
      (List.subperm_of_subset hnd hsub).perm_of_length_le
        (by simp [List.length_range'])
    have hj : j ∈ dict_words.map Prod.snd :=
      hperm.mem_iff.mpr (List.mem_range'.mpr ⟨j - 1, by omega, by omega⟩)
    obtain ⟨kv, hkv, rfl⟩ := List.mem_map.mp hj
    exact ⟨kv, hkv, rfl⟩

theorem feature_vector_correct_witness :
    (paragraphs_to_features [("aa", 1), ("bb", 2)] "x.txt" ["bb cc"] []).length = 1 ∧
    (∃ pr, (paragraphs_to_features [("aa", 1), ("bb", 2)] "x.txt" ["bb cc"] [])[0]?
        = some pr ∧
      pr.2.length = [(("aa" : String), 1), ("bb", 2)].length + 1 ∧
      ∀ kv ∈ [(("aa" : String), 1), ("bb", 2)],
        pr.2[kv.2]? = some (if kv.1 ∈ find_unique_words "bb cc" then 1 else 0)) := by
  have h := feature_vector_correct [("aa", 1), ("bb", 2)] [] "x.txt" ["bb cc"]
    (by decide) (by decide)
  exact ⟨h.1, h.2.1 0 "bb cc" (by decide)⟩

/-! ## C10 -/

theorem create_dictionary_snd (files : List String) :
    (create_dictionary files).map Prod.snd
      = List.range' 1 (create_dictionary files).length := by
  simp only [create_dictionary]
  rw [List.map_map]
  have hcomp : (Prod.snd ∘ fun p : Nat × String => (p.2, p.1)) = Prod.fst := rfl
  rw [hcomp, List.enumFrom_map_fst, List.length_map, List.enumFrom_length]

/-- C10: for a dictionary produced by `create_dictionary`, every write of the
vectorization step is in bounds: each emitted vector has length `|V| + 1`,
the class write targets slot 0 (`0 < |V| + 1`), and every word write targets
a slot `kv.2` with `0 < kv.2 < |V| + 1`. -/
theorem vector_writes_in_bounds (files : List String) (txt : String)
    (paragraphs : List String) (classes : List (String × Nat)) :
    (∀ kv ∈ create_dictionary files,
      0 < kv.2 ∧ kv.2 < (create_dictionary files).length + 1) ∧
    (0 < (create_dictionary files).length + 1) ∧
    (∀ pr ∈ paragraphs_to_features (create_dictionary files) txt paragraphs classes,
      pr.2.length = (create_dictionary files).length + 1) := by
  refine ⟨?_, Nat.succ_pos _, ?_⟩
  · intro kv hkv
    have hm : kv.2 ∈ (create_dictionary files).map Prod.snd := List.mem_map_of_mem _ hkv
    rw [create_dictionary_snd] at hm
    obtain ⟨i, hi, heq⟩ := List.mem_range'.mp hm
    omega
  · intro pr hpr
    unfold paragraphs_to_features at hpr
    obtain ⟨p, _, rfl⟩ := List.mem_map.mp hpr
    exact mkFeatures_length ..

theorem vector_writes_in_bounds_witness :
    0 < (("aa", 1) : String × Nat).2 ∧
    (("aa", 1) : String × Nat).2 < (create_dictionary ["aa bb"]).length + 1 := by
  exact (vector_writes_in_bounds ["aa bb"] "x" [] []).1 ("aa", 1) (by decide)

/-! ## C1 -/

theorem pairwise_enumFrom_of_pairwise {α : Type} {R : α → α → Prop} :
    ∀ (l : List α) (n : Nat), List.Pairwise R l →
      List.Pairwise (fun p q : Nat × α => R p.2 q.2 ∧ p.1 < q.1) (List.enumFrom n l) := by
  intro l
  induction l with
  | nil => intro n _; exact List.Pairwise.nil
  | cons a l ih =>
      intro n hp
      rw [List.enumFrom_cons, List.pairwise_cons]
      rw [List.pairwise_cons] at hp
      refine ⟨?_, ih (n + 1) hp.2⟩
      intro q hq
      obtain ⟨hle, _, hq2⟩ := List.mem_enumFrom (x := q.2) (i := q.1) (by simpa using hq)
      constructor
      · have : q.2 ∈ l := by
          rw [hq2]; exact List.getElem_mem _
        exact hp.1 q.2 this
      · omega

theorem create_dictionary_sorted_strict (files : List String) :
    List.Pairwise (fun a b : String => a.data < b.data)
      (List.insertionSort wordLe (files.flatMap find_unique_words).dedup) := by
  have hsorted : List.Sorted wordLe
      (List.insertionSort wordLe (files.flatMap find_unique_words).dedup) :=
    List.sorted_insertionSort wordLe _
  have hnodup : (List.insertionSort wordLe (files.flatMap find_unique_words).dedup).Nodup :=
    ((List.perm_insertionSort wordLe _).nodup_iff).mpr (List.nodup_dedup _)
  exact (hsorted.and hnodup).imp
    (fun hab => lt_of_le_of_ne hab.1 (fun hdq => hab.2 (String.ext hdq)))

/-- C1: `create_dictionary` maps exactly the union of the normalized unique
words of the files' contents to integer indices: the index sequence is
exactly `1, 2, 3, ..., |V|` in list order while the words strictly increase
lexicographically (code-point order), so indices are assigned in
lexicographic order of the words, the mapping is injective, the index range
is exactly `[1, |V|]`, and index 0 is never assigned. -/
theorem create_dictionary_correct (files : List String) :
    (∀ w : String, (∃ i, (w, i) ∈ create_dictionary files)
        ↔ w ∈ files.flatMap find_unique_words) ∧
    ((create_dictionary files).map Prod.snd
        = List.range' 1 (create_dictionary files).length) ∧
    List.Pairwise (fun p q : String × Nat => p.1.data < q.1.data ∧ p.2 < q.2)
      (create_dictionary files) ∧
    (∀ kv ∈ create_dictionary files,
      1 ≤ kv.2 ∧ kv.2 ≤ (create_dictionary files).length) ∧
    ((create_dictionary files).map Prod.fst).Nodup := by
  have hdef : create_dictionary files
      = (List.enumFrom 1 (List.insertionSort wordLe
          (files.flatMap find_unique_words).dedup)).map (fun p => (p.2, p.1)) := rfl
  have hfst : (create_dictionary files).map Prod.fst
      = List.insertionSort wordLe (files.flatMap find_unique_words).dedup := by
    rw [hdef, List.map_map]
    have hcomp : (Prod.fst ∘ fun p : Nat × String => (p.2, p.1)) = Prod.snd := rfl
    rw [hcomp, List.enumFrom_map_snd]
  refine ⟨?_, create_dictionary_snd files, ?_, ?_, ?_⟩
  · intro w
    constructor
    · rintro ⟨i, hwi⟩
      rw [hdef] at hwi
      obtain ⟨p, hp, heq⟩ := List.mem_map.mp hwi
      have hw : p.2 = w := congrArg Prod.fst heq
      have hmem : p.2 ∈ List.insertionSort wordLe (files.flatMap find_unique_words).dedup := by
        have hm := List.mem_map_of_mem Prod.snd hp
        rwa [List.enumFrom_map_snd] at hm
      rw [hw] at hmem
      have hdd := (List.perm_insertionSort wordLe _).mem_iff.mp hmem
      rwa [List.mem_dedup] at hdd
    · intro hw
      have h1 : w ∈ (files.flatMap find_unique_words).dedup := List.mem_dedup.mpr hw
      have h2 : w ∈ List.insertionSort wordLe (files.flatMap find_unique_words).dedup :=
        (List.perm_insertionSort wordLe _).mem_iff.mpr h1
      have h3 : w ∈ (List.enumFrom 1 (List.insertionSort wordLe
          (files.flatMap find_unique_words).dedup)).map Prod.snd := by
        rwa [List.enumFrom_map_snd]
      obtain ⟨p, hp, hpe⟩ := List.mem_map.mp h3
      refine ⟨p.1, ?_⟩
      rw [hdef]
      exact List.mem_map.mpr ⟨p, hp, by rw [hpe]⟩
  · rw [hdef, List.pairwise_map]
    exact (pairwise_enumFrom_of_pairwise _ 1 (create_dictionary_sorted_strict files)).imp
      (fun hpq => ⟨hpq.1, hpq.2⟩)
  · intro kv hkv
    have hm : kv.2 ∈ (create_dictionary files).map Prod.snd := List.mem_map_of_mem _ hkv
    rw [create_dictionary_snd] at hm
    obtain ⟨i, hi, heq⟩ := List.mem_range'.mp hm
    omega
  · rw [hfst]
    exact ((List.perm_insertionSort wordLe _).nodup_iff).mpr (List.nodup_dedup _)

theorem create_dictionary_correct_witness :
    (∃ i, (("bb" : String), i) ∈ create_dictionary ["aa bb", "bb cc"]) ∧
    (create_dictionary ["aa bb", "bb cc"]).map Prod.snd
      = List.range' 1 (create_dictionary ["aa bb", "bb cc"]).length := by
  have h := create_dictionary_correct ["aa bb", "bb cc"]
  exact ⟨(h.1 "bb").mpr (by decide), h.2.1⟩

/-! ## Paragraph-segmentation lemmas -/

theorem read_paragraphs_loop :
    ∀ (lines ps : List String) (p : String),
      (if (lines.foldl paraStep (ps, p)).2.length > 0
       then (lines.foldl paraStep (ps, p)).1 ++ [(lines.foldl paraStep (ps, p)).2]
       else (lines.foldl paraStep (ps, p)).1) = ps ++ mapFlush p lines := by
  intro lines
  induction lines with
  | nil =>
      intro ps p
      show (if p.length > 0 then ps ++ [p] else ps) = ps ++ mapFlush p []
      by_cases h : p.length > 0
      · simp [mapFlush, h]
      · simp [mapFlush, h]
  | cons l ls ih =>
      intro ps p
      rw [List.foldl_cons]
      by_cases h : l = ""
      · subst h
        have hps : paraStep (ps, p) "" = (ps ++ [p], "") := by simp [paraStep]
        rw [hps, ih]
        have hmf : mapFlush p ("" :: ls) = p :: mapFlush "" ls := by simp [mapFlush]
        rw [hmf]
        simp
      · have hps : paraStep (ps, p) l = (ps, p ++ " " ++ l) := by simp [paraStep, h]
        rw [hps, ih]
        have hmf : mapFlush p (l :: ls) = mapFlush (p ++ " " ++ l) ls := by
          simp [mapFlush, h]
        rw [hmf]

theorem read_paragraphs_eq_mapFlush (text : String) :
    read_paragraphs text = mapFlush "" (splitlines text) := by
  have h := read_paragraphs_loop (splitlines text) [] ""
  simpa [read_paragraphs] using h

theorem spaceJoin_snoc (r : List String) (l : String) :
    spaceJoin (r ++ [l]) = spaceJoin r ++ " " ++ l := by
  induction r with
  | nil =>
      show (" " ++ l) ++ spaceJoin [] = spaceJoin [] ++ " " ++ l
      apply String.ext
      simp [spaceJoin, String.data_append, data_empty]
  | cons a r ih =>
      show (" " ++ a) ++ spaceJoin (r ++ [l]) = ((" " ++ a) ++ spaceJoin r) ++ " " ++ l
      rw [ih]
      apply String.ext
      simp [String.data_append, List.append_assoc]

theorem mapFlush_structure :
    ∀ (lines run0 : List String), (∀ l ∈ run0, l ≠ "") →
      ∀ q ∈ mapFlush (spaceJoin run0) lines,
        ∃ run, IsRun run (run0 ++ lines) ∧ (∀ l ∈ run, l ≠ "") ∧ q = spaceJoin run := by
  intro lines
  induction lines with
  | nil =>
      intro run0 h0 q hq
      unfold mapFlush at hq
      split at hq
      · have hqe : q = spaceJoin run0 := by simpa using hq
        exact ⟨run0, ⟨[], [], by simp⟩, h0, hqe⟩
      · cases hq
  | cons l ls ih =>
      intro run0 h0 q hq
      by_cases h : l = ""
      · subst h
        have hq2 : q ∈ spaceJoin run0 :: mapFlush "" ls := by
          simpa [mapFlush] using hq
        rcases List.mem_cons.mp hq2 with he | ht
        · exact ⟨run0, ⟨[], "" :: ls, by simp⟩, h0, he⟩
        · have hmf : q ∈ mapFlush (spaceJoin []) ls := by simpa [spaceJoin] using ht
          obtain ⟨run, ⟨s, t, hst⟩, hne, hq3⟩ := ih [] (by simp) q hmf
          simp only [List.nil_append] at hst
          refine ⟨run, ⟨run0 ++ [""] ++ s, t, ?_⟩, hne, hq3⟩
          rw [hst]
          simp [List.append_assoc]
      · have hq2 : q ∈ mapFlush (spaceJoin run0 ++ " " ++ l) ls := by
          simpa [mapFlush, h] using hq
        rw [← spaceJoin_snoc] at hq2
        obtain ⟨run, ⟨s, t, hst⟩, hne, hq3⟩ := ih (run0 ++ [l])
          (by
            intro x hx
            rcases List.mem_append.mp hx with h1 | h2
            · exact h0 x h1
            · simp only [List.mem_singleton] at h2
              subst h2; exact h)
          q hq2
        refine ⟨run, ⟨s, t, ?_⟩, hne, hq3⟩
        have hre : run0 ++ l :: ls = (run0 ++ [l]) ++ ls := by simp
        rw [hre, hst]

/-! ## C6 -/

theorem read_paragraphs_nonblank_counterexample :
    "" ∈ read_paragraphs "\nhello" := by decide

/-- C6 amended: every element of `read_paragraphs` is the join of a
contiguous run of non-blank lines of the document, each line contributed
with a single leading space; the run may be empty (a leading blank line or
consecutive blank lines flush an empty buffer), in which case the element
is the empty string. -/
theorem read_paragraphs_runs (text : String) :
    ∀ p ∈ read_paragraphs text, ∃ run : List String,
      IsRun run (splitlines text) ∧ (∀ l ∈ run, l ≠ "") ∧ p = spaceJoin run := by
  intro p hp
  rw [read_paragraphs_eq_mapFlush] at hp
  have hres := mapFlush_structure (splitlines text) [] (by simp) p
    (by simpa [spaceJoin] using hp)
  simpa using hres

theorem read_paragraphs_runs_witness :
    ∃ run : List String, IsRun run (splitlines "\nab cd") ∧ (∀ l ∈ run, l ≠ "") ∧
      (" ab cd" : String) = spaceJoin run :=
  read_paragraphs_runs "\nab cd" " ab cd" (by decide)

/-! ## C7 -/

theorem spaceJoin_length_pos (l : String) (ls : List String) :
    0 < (spaceJoin (l :: ls)).length := by
  show 0 < ((" " ++ l) ++ spaceJoin ls).length
  rw [String.length_append, String.length_append]
  have h1 : (" " : String).length = 1 := rfl
  omega

theorem mapFlush_no_blank :
    ∀ (lines run0 : List String), (lines ≠ [] ∨ run0 ≠ []) → "" ∉ lines →
      mapFlush (spaceJoin run0) lines = [spaceJoin (run0 ++ lines)] := by
  intro lines
  induction lines with
  | nil =>
      intro run0 hne hnb
      rcases hne with h | h
      · exact absurd rfl h
      · obtain ⟨l, ls, rfl⟩ := List.exists_cons_of_ne_nil h
        show (if (spaceJoin (l :: ls)).length > 0 then [spaceJoin (l :: ls)] else [])
            = [spaceJoin ((l :: ls) ++ [])]
        rw [if_pos (spaceJoin_length_pos l ls), List.append_nil]
  | cons l ls ih =>
      intro run0 _ hnb
      have hl : l ≠ "" := by
        intro h; exact hnb (h ▸ List.mem_cons_self _ _)
      have hstep : mapFlush (spaceJoin run0) (l :: ls)
          = mapFlush (spaceJoin run0 ++ " " ++ l) ls := by
        simp [mapFlush, hl]
      rw [hstep, ← spaceJoin_snoc,
        ih (run0 ++ [l]) (Or.inr (by simp)) (fun h => hnb (List.mem_cons_of_mem _ h))]
      have hre : (run0 ++ [l]) ++ ls = run0 ++ l :: ls := by simp
      rw [hre]

theorem splitlinesAux_ne_nil : ∀ (cs cur : List Char), splitlinesAux cur cs ≠ [] := by
  intro cs
  induction cs with
  | nil => intro cur; simp [splitlinesAux]
  | cons c cs ih =>
      intro cur
      show (if c = '\n' then String.mk cur.reverse :: splitlinesAux [] cs
            else splitlinesAux (c :: cur) cs) ≠ []
      split
      · simp
      · exact ih _

theorem splitlinesAux_singleton :
    ∀ (cs cur : List Char) (s : String), splitlinesAux cur cs = [s] →
      s = String.mk (cur.reverse ++ cs) := by
  intro cs
  induction cs with
  | nil =>
      intro cur s h
      simp only [splitlinesAux, List.cons.injEq, and_true] at h
      rw [← h]
      apply congrArg
      simp
  | cons c cs ih =>
      intro cur s h
      by_cases hc : c = '\n'
      · exfalso
        rw [show splitlinesAux cur (c :: cs)
            = String.mk cur.reverse :: splitlinesAux [] cs from by
              simp [splitlinesAux, hc]] at h
        injection h with h1 h2
        exact splitlinesAux_ne_nil cs [] h2
      · rw [show splitlinesAux cur (c :: cs) = splitlinesAux (c :: cur) cs from by
          simp [splitlinesAux, hc]] at h
        rw [ih (c :: cur) s h]
        apply congrArg
        simp

theorem splitlines_ne_nil {text : String} (h : text ≠ "") : splitlines text ≠ [] := by
  have hdata : text.data ≠ [] := by
    intro hd
    apply h
    apply String.ext
    rw [hd]
  unfold splitlines
  rw [if_neg hdata]
  show (if (splitlinesAux [] text.data).getLast? = some ""
        then (splitlinesAux [] text.data).dropLast
        else splitlinesAux [] text.data) ≠ []
  split
  · rename_i hlast
    intro hdrop
    have hp1 : splitlinesAux [] text.data ≠ [] := splitlinesAux_ne_nil _ _
    have hlen0 : (splitlinesAux [] text.data).length - 1 = 0 := by
      rw [← List.length_dropLast, hdrop]; rfl
    have hpos : 0 < (splitlinesAux [] text.data).length := List.length_pos.mpr hp1
    have hlen1 : (splitlinesAux [] text.data).length = 1 := by omega
    obtain ⟨s, hs⟩ := List.length_eq_one.mp hlen1
    rw [hs] at hlast
    have hse : s = "" := by simpa using hlast
    have hsing := splitlinesAux_singleton text.data [] s hs
    rw [hse] at hsing
    apply hdata
    have hd := congrArg String.data hsing
    simpa [data_empty] using hd.symm
  · exact splitlinesAux_ne_nil _ _

theorem spaceJoin_eq_joinSp : ∀ (l : String) (ls : List String),
    spaceJoin (l :: ls) = " " ++ joinSp (l :: ls) := by
  intro l ls
  induction ls generalizing l with
  | nil =>
      show (" " ++ l) ++ "" = " " ++ l
      exact String.append_empty _
  | cons l2 ls ih =>
      show (" " ++ l) ++ spaceJoin (l2 :: ls) = " " ++ (l ++ " " ++ joinSp (l2 :: ls))
      rw [ih l2]
      apply String.ext
      simp [String.data_append, List.append_assoc]

theorem read_paragraphs_whole_text_counterexample :
    read_paragraphs "hello\nworld" ≠ [joinSp (splitlines "hello\nworld")] := by decide

/-- C7 amended: a non-empty document with no blank lines yields exactly one
paragraph, equal to a single space followed by the whole space-joined text;
the empty document yields the empty sequence. -/
theorem read_paragraphs_no_blank_lines (text : String) :
    (text ≠ "" → "" ∉ splitlines text →
      read_paragraphs text = [" " ++ joinSp (splitlines text)]) ∧
    read_paragraphs "" = [] := by
  refine ⟨?_, by decide⟩
  intro hne hnb
  rw [read_paragraphs_eq_mapFlush]
  have hlines := splitlines_ne_nil hne
  have h := mapFlush_no_blank (splitlines text) [] (Or.inl hlines) hnb
  simp only [spaceJoin, List.nil_append] at h
  rw [h]
  obtain ⟨l, ls, hls⟩ := List.exists_cons_of_ne_nil hlines
  rw [hls, spaceJoin_eq_joinSp]

theorem read_paragraphs_no_blank_lines_witness :
    read_paragraphs "ab\ncd" = [" " ++ joinSp (splitlines "ab\ncd")] :=
  (read_paragraphs_no_blank_lines "ab\ncd").1 (by decide) (by decide)

/-! ## C8 -/

theorem para_id_counterexample :
    (paragraphs_to_features [] "doc.txt.txt" ["x"] []).map Prod.fst = ["doc.1"] ∧
    ("doc.1" : String) ≠ "doc.txt.1" := by decide

/-- C8 amended: the ParagraphID of the `i`-th emitted example (1-based
index `i + 1` for list position `i`) is the document's base filename with
every occurrence of `.txt` removed (not only a trailing extension), then a
dot, then the decimal 1-based paragraph index. -/
theorem para_id_correct (dict_words classes : List (String × Nat)) (txt : String)
    (paragraphs : List String) (i : Nat) (hi : i < paragraphs.length) :
    ((paragraphs_to_features dict_words txt paragraphs classes)[i]?).map Prod.fst
      = some (String.mk (stripTxtAll (basenameChars txt.data))
          ++ "." ++ toString (i + 1)) := by
  unfold paragraphs_to_features
  rw [List.getElem?_map, List.getElem?_enumFrom, List.getElem?_eq_getElem hi]
  simp [para_id, Nat.add_comm]

theorem para_id_correct_witness :
    ((paragraphs_to_features [] "d/x.txt" ["a", "b"] [])[1]?).map Prod.fst
      = some (String.mk (stripTxtAll (basenameChars ("d/x.txt" : String).data))
          ++ "." ++ toString (1 + 1)) :=
  para_id_correct [] [] "d/x.txt" ["a", "b"] 1 (by decide)
